import Mathlib

/-!
Verification development for the NeuromorphicModelling routing-waste
simulator.  The repository routes multicast spike messages over a tree of
switches ("coreTree": switch id -> ordered child list, "coreParent":
node id -> parent id) in two ways: an LCA/Broadcast router
(RoutingSimulator::simulate, leaf-descendant accounting) and a
hierarchical-bitmask router (HBSRoutingSimulator::simulateNeuronToNeuron).
Every definition below is a shallow embedding of the corresponding C++
function; recursion over the tree maps is bounded by an explicit fuel
parameter (the C++ recursions terminate on the acyclic trees the builders
produce).  Node ids are integers because the topology builder uses -1 both
as a synthetic filler child and as the root's parent sentinel.
-/

/-- Topology: association list from switch id to its ordered child list,
embedding the C++ `unordered_map<int, vector<int>> coreTree`. -/
abbrev CoreTree := List (Int × List Int)

/-- Parent map: association list from node id to parent id, embedding
`unordered_map<int, int> coreParent` (the root is mapped to -1). -/
abbrev CoreParent := List (Int × Int)

/-- Neuron-to-core map, embedding `unordered_map<int, int> neuronToCoreMap`. -/
abbrev NeuronMap := List (Nat × Int)

/-- Hard-coded root id used by the LCA router's reachability check
(`const int rootCore = 30` in RoutingSimulator.cpp). -/
def rootCore : Int := 30

/-- Fixed leaf-group width (`static constexpr int MAX_GROUP_SIZE = 4`
in HBSRoutingSimulator.cpp). -/
def maxGroupSize : Int := 4

/-- Chain of nodes from `c` up to the root, embedding the
`while (coreA != -1) { pathA.push_back(coreA); coreA = parent-or(-1); }`
loops of `RoutingSimulator::findLCA`.  `fuel` bounds the ascent. -/
def upChain (cp : CoreParent) : Nat → Int → List Int
  | 0, _ => []
  | fuel + 1, c =>
    if c = -1 then []
    else c :: upChain cp fuel ((cp.lookup c).getD (-1))

/-- Scan two root-to-node paths in lockstep, keeping the last node on
which they agree (initialised to -1), embedding the common-prefix loop of
`RoutingSimulator::findLCA`. -/
def lcaScan : List Int → List Int → Int
  | x :: xs, y :: ys =>
    if x = y then
      (let r := lcaScan xs ys
       if r = -1 then x else r)
    else -1
  | _, _ => -1

/-- Longest common prefix of two paths; its last element is the deepest
node the two root-to-node paths share (spec 4.3 step 2 wording). -/
def commonRun : List Int → List Int → List Int
  | x :: xs, y :: ys => if x = y then x :: commonRun xs ys else []
  | _, _ => []

/-- Pairwise lowest common ancestor, embedding `RoutingSimulator::findLCA`:
climb both nodes to the root, reverse the two paths and take the deepest
common-prefix node. -/
def findLCA (cp : CoreParent) (fuel : Nat) (a b : Int) : Int :=
  lcaScan (upChain cp fuel a).reverse (upChain cp fuel b).reverse

/-- Leaf descendants of a node in depth-first order, embedding
`collectLeafDescendants` inside `RoutingSimulator::simulate`: a node
absent from `coreTree` is a leaf; otherwise recurse into the children. -/
def leafDesc (ct : CoreTree) : Nat → Int → List Int
  | 0, _ => []
  | fuel + 1, node =>
    match ct.lookup node with
    | none => [node]
    | some children => children.flatMap (fun c => leafDesc ct fuel c)

/-- Descendant test, embedding `RoutingSimulator::isDescendant`
(depth-first recursion over the child lists). -/
def isDescendant (ct : CoreTree) : Nat → Int → Int → Bool
  | 0, _, _ => false
  | fuel + 1, current, target =>
    current == target ||
      (match ct.lookup current with
       | none => false
       | some children => children.any (fun c => isDescendant ct fuel c target))

/-- Breadth-first worklist loop of `collectLeafCores` in
HBSRoutingSimulator.cpp: pop a node; a non-switch node is appended to the
leaf list, a switch appends its leaf children now and queues its switch
children. -/
def bfsLeaves (ct : CoreTree) : Nat → List Int → List Int
  | 0, _ => []
  | _, [] => []
  | fuel + 1, cur :: rest =>
    match ct.lookup cur with
    | none => cur :: bfsLeaves ct fuel rest
    | some children =>
      children.filter (fun c => (ct.lookup c).isNone)
        ++ bfsLeaves ct fuel (rest ++ children.filter (fun c => (ct.lookup c).isSome))

/-- Leaf cores under `node`, embedding `collectLeafCores` in
HBSRoutingSimulator.cpp: a non-switch node is its own leaf list,
otherwise run the BFS worklist from the node. -/
def collectLeafCores (ct : CoreTree) (fuel : Nat) (node : Int) : List Int :=
  if (ct.lookup node).isNone then [node] else bfsLeaves ct fuel [node]

/-- Source core of a neuron:
`neuronToCoreMap.count(src) ? neuronToCoreMap.at(src) : -1`. -/
def srcCoreOf (n2c : NeuronMap) (src : Nat) : Int :=
  ((n2c.lookup src).getD (-1))

/-- Target-core set of the LCA router, embedding the target-derivation
loop of `RoutingSimulator::simulate` (both the part_003 and the
RoutingEval/common versions, lines 199-209 resp. 49-59): destination `i`
contributes its core when `connectivityMatrix[src][i] > weightThreshold`,
`i` is mapped, and its core differs from the source's core. -/
def lcaTargets (m : List (List Int)) (thr : Int) (n2c : NeuronMap) (src : Nat) :
    Finset Int :=
  (((List.range m.length).filter (fun i =>
      decide (thr < ((m.getD src []).getD i 0))
        && (n2c.lookup i).isSome
        && decide ((n2c.lookup i).getD (-1) ≠ srcCoreOf n2c src))).map
    (fun i => (n2c.lookup i).getD (-1))).toFinset

/-- Cached target-core set of the HBS router, embedding the constructor
loop of `HBSRoutingSimulator` (lines 100-117): an unmapped source gets no
entry; otherwise destination `dstNeuron` contributes its core when
`row[dstNeuron] >= weightThreshold` and it is mapped.  Note there is no
exclusion of the source's own core here. -/
def hbsTargets (m : List (List Int)) (thr : Int) (n2c : NeuronMap) (src : Nat) :
    Finset Int :=
  if (n2c.lookup src).isSome then
    (((List.range (m.getD src []).length).filter (fun j =>
        decide (thr ≤ ((m.getD src []).getD j 0)) && (n2c.lookup j).isSome)).map
      (fun j => (n2c.lookup j).getD (-1))).toFinset
  else ∅

/-- Result of one LCA-router routing call: the chosen ancestor, the set of
cores whose per-endpoint waste counter is incremented (each by exactly 1),
and the per-source waste total written to `neuronWaste[src]`. -/
structure LCAResult where
  lca : Int
  coreIncs : Finset Int
  wasteDelta : Nat
deriving DecidableEq

/-- Ancestor selection of part_003's `RoutingSimulator::simulate` (lines
262-273): the pairwise `findLCA` of the smallest and largest target core
(via `std::minmax_element`), or of source and target when there is exactly
one target. -/
def lcaSelect (cp : CoreParent) (fuel : Nat) (srcCore : Int)
    (targets : Finset Int) (h : targets.Nonempty) : Int :=
  if targets.card = 1 then
    (if targets.min' h ≠ srcCore then findLCA cp fuel srcCore (targets.min' h)
     else srcCore)
  else findLCA cp fuel (targets.min' h) (targets.max' h)

/-- Waste accounting of one non-abandoned LCA-router call (lines 312-343
of part_003): the per-endpoint increments go to the leaf descendants of
the ancestor that are not target cores, and `neuronWaste[src]` receives
their number. -/
def lcaAccount (ct : CoreTree) (fuel : Nat) (lca : Int)
    (targets : Finset Int) : LCAResult :=
  ⟨lca, (leafDesc ct fuel lca).toFinset \ targets,
    ((leafDesc ct fuel lca).toFinset \ targets).card⟩

/-- One source's routing call of the LCA/Broadcast router, embedding
`RoutingSimulator::simulate` in part_003 (lines 261-343): an empty target
set is a no-op, the call is abandoned (`none`) when `coreParent` has no
entry for the selected ancestor and it is not the hard-coded root, and
otherwise the leaf-descendant waste accounting runs. -/
def lcaRoute (ct : CoreTree) (cp : CoreParent) (fuel : Nat)
    (srcCore : Int) (targets : Finset Int) : Option LCAResult :=
  if h : targets.Nonempty then
    if (cp.lookup (lcaSelect cp fuel srcCore targets h)).isNone
        && decide (lcaSelect cp fuel srcCore targets h ≠ rootCore) then none
    else some (lcaAccount ct fuel (lcaSelect cp fuel srcCore targets h) targets)
  else none

/-- Per-endpoint waste loop of the RoutingEval/common/RoutingSimulator.cpp
variant (lines 188-193): among the visited cores, every core that is not
the source core and not a target gets one increment. -/
def visitedWasteIncs (srcCore : Int) (targets visitedCores : Finset Int) :
    Finset Int :=
  visitedCores.filter (fun c => c ≠ srcCore ∧ c ∉ targets)

/-- Index of the first list element satisfying `p`, counting from `k`
(helper for the linear scans in `childIndexUnder` and the fallback scan of
`simulateNeuronToNeuron`). -/
def firstIdxAux (p : Int → Bool) : List Int → Nat → Option Nat
  | [], _ => none
  | x :: xs, k => if p x then some k else firstIdxAux p xs (k + 1)

/-- Descendant test of HBSRoutingSimulator.cpp (`isDescendant`): a
breadth-first worklist search from `current` for `target`, without a
visited set. -/
def hbsIsDescendant (ct : CoreTree) : Nat → List Int → Int → Bool
  | 0, _, _ => false
  | _, [], _ => false
  | fuel + 1, u :: q, target =>
    if u == target then true
    else
      match ct.lookup u with
      | none => hbsIsDescendant ct fuel q target
      | some children => hbsIsDescendant ct fuel (q ++ children) target

/-- Child index assigned to target core `c` at its parent switch,
embedding the grouping step of `simulateNeuronToNeuron` (lines 206-233):
`childIndexUnder` scans the child list for `c` itself; on failure, if the
parent is not a switch the target is skipped (`none`), else the first
child that is an ancestor of `c` gives the index; failing that the target
is placed in the `-1` bucket. -/
def assignIdx (ct : CoreTree) (fuel : Nat) (parent c : Int) : Option Int :=
  match ct.lookup parent with
  | none => none
  | some children =>
    match firstIdxAux (fun x => x == c) children 0 with
    | some i => some (Int.ofNat i)
    | none =>
      match firstIdxAux (fun x => hbsIsDescendant ct fuel [x] c) children 0 with
      | some i => some (Int.ofNat i)
      | none => some (-1)

/-- Bucket of `parentToChildIdxTargets[parent][ci]`: the target cores
whose `coreParent` entry is `parent` and whose assigned child index is
`ci`. -/
def hbsBucket (ct : CoreTree) (cp : CoreParent) (fuel : Nat)
    (targets : Finset Int) (parent ci : Int) : Finset Int :=
  targets.filter (fun c =>
    cp.lookup c = some parent ∧ assignIdx ct fuel parent c = some ci)

/-- Participating parent switches of a source: the `coreParent` entries of
its target cores (orphan cores are ignored), embedding the
`parentSwitches` set of `simulateNeuronToNeuron`. -/
def parentSwitches (cp : CoreParent) (targets : Finset Int) : Finset Int :=
  (targets.filter (fun c => (cp.lookup c).isSome)).image
    (fun c => (cp.lookup c).getD (-1))

/-- Local forwarding mask of one parent switch, embedding lines 238-251:
child indices `ci < min(children.size, MAX_GROUP_SIZE)` whose bucket is
non-empty; a parent absent from `coreTree` gets an empty mask (the
defensive `continue`). -/
def localMask (ct : CoreTree) (cp : CoreParent) (fuel : Nat)
    (targets : Finset Int) (parent : Int) : Finset Int :=
  match ct.lookup parent with
  | none => ∅
  | some children =>
    ((Finset.range (min children.length 4)).filter
      (fun n => (hbsBucket ct cp fuel targets parent (Int.ofNat n)).Nonempty)).image
      Int.ofNat

/-- Canonical list of a multiset's elements (by insertion sort); the C++
loops iterate `unordered_set` containers in an unspecified order, so a
fixed order is a faithful embedding of those loops. -/
def msList (m : Multiset Int) : List Int :=
  Quot.liftOn m (List.insertionSort (· ≤ ·)) (fun a b h =>
    List.eq_of_perm_of_sorted
      ((List.perm_insertionSort _ a).trans
        (h.trans (List.perm_insertionSort _ b).symm))
      (List.sorted_insertionSort _ a) (List.sorted_insertionSort _ b))

/-- Canonical iteration order of a finite set of node ids. -/
def finsetList (s : Finset Int) : List Int := msList s.val

/-- Global OR mask of a source, embedding `globalMaskIndices`: the indices
inserted while looping over every participating parent's local mask. -/
def globalMask (ct : CoreTree) (cp : CoreParent) (fuel : Nat)
    (targets : Finset Int) : Finset Int :=
  (finsetList (parentSwitches cp targets)).foldl
    (fun acc p => acc ∪ localMask ct cp fuel targets p) ∅

/-- Contribution of one (parent, child-index) pair to the HBS waste
counters, embedding lines 276-330 of `simulateNeuronToNeuron`: indices
that are negative, out of range of the child list, or at least
MAX_GROUP_SIZE are skipped; otherwise `wasteHere` is the leaf count under
the child minus the bucket size, and when positive it is added to the
per-source counter while the per-endpoint counter of every leaf (all
leaves when the bucket is empty, the non-bucket leaves otherwise) is
incremented.  Returns (per-source delta, list of per-endpoint
increments). -/
def hbsPairContribution (ct : CoreTree) (cp : CoreParent) (fuel : Nat)
    (targets : Finset Int) (parent ci : Int) : Nat × List Int :=
  match ct.lookup parent with
  | none => (0, [])
  | some children =>
    if ci < 0 ∨ (children.length : Int) ≤ ci ∨ maxGroupSize ≤ ci then (0, [])
    else
      let childNode := children.getD ci.toNat 0
      let leaves := collectLeafCores ct fuel childNode
      let tgt := hbsBucket ct cp fuel targets parent ci
      let wasteHere : Int := (leaves.length : Int) - (tgt.card : Int)
      if 0 < wasteHere then
        (wasteHere.toNat,
         if tgt.card = 0 then leaves
         else leaves.filter (fun c => decide (c ∉ tgt)))
      else (0, [])

/-- One source's routing call of the HBS router: fold the pair
contributions over every participating parent and every global-mask
index, accumulating the per-source delta and the per-endpoint increment
list exactly as the nested loops at lines 276-330 do. -/
def hbsRouteSource (ct : CoreTree) (cp : CoreParent) (fuel : Nat)
    (targets : Finset Int) : Nat × List Int :=
  (finsetList (parentSwitches cp targets)).foldl
    (fun acc p =>
      (finsetList (globalMask ct cp fuel targets)).foldl
        (fun acc2 ci =>
          let pr := hbsPairContribution ct cp fuel targets p ci
          (acc2.1 + pr.1, acc2.2 ++ pr.2))
        acc)
    (0, [])

/-- Well-formedness of one (parent, child-index) pair: the leaf
enumeration under the opened child has no duplicates, and every bucketed
target core is among those leaves.  This holds on the tree topologies the
builders produce (cores appear once and only as leaves). -/
abbrev pairWF (ct : CoreTree) (cp : CoreParent) (fuel : Nat)
    (targets : Finset Int) (parent ci : Int) : Prop :=
  ∀ children ∈ ct.lookup parent,
    0 ≤ ci → ci.toNat < children.length → ci < maxGroupSize →
    (collectLeafCores ct fuel (children.getD ci.toNat 0)).Nodup ∧
    ∀ c ∈ hbsBucket ct cp fuel targets parent ci,
      c ∈ collectLeafCores ct fuel (children.getD ci.toNat 0)

/-- Binary topology over four cores 0-3 as NeuronMapper builds it for
`core_count = 4`: switches 4 = {0,1}, 5 = {2,3}, 6 = {4,5} (root). -/
def treeFour : CoreTree := [(4, [0, 1]), (5, [2, 3]), (6, [4, 5])]

/-- Parent map of `treeFour` (the root is mapped to -1 as in
`core_parent[root] = -1`). -/
def parentFour : CoreParent :=
  [(0, 4), (1, 4), (2, 5), (3, 5), (4, 6), (5, 6), (6, -1)]

/-- Hierarchical topology over eight cores as HBSNeuronMapper builds it:
two leaf switches of four cores (8 = {0,1,2,3}, 9 = {4,5,6,7}) under the
binary root 10. -/
def treeHier : CoreTree :=
  [(8, [0, 1, 2, 3]), (9, [4, 5, 6, 7]), (10, [8, 9])]

/-- Parent map of `treeHier`. -/
def parentHier : CoreParent :=
  [(0, 8), (1, 8), (2, 8), (3, 8), (4, 9), (5, 9), (6, 9), (7, 9),
    (8, 10), (9, 10), (10, -1)]

/-- Binary topology over three cores as NeuronMapper builds it for
`core_count = 3`: cores 0,1 pair under switch 3, the lone core 2 is
paired with the synthetic filler child -1 under dummy switch 4, and the
root 5 joins 3 and 4. -/
def treeFiller : CoreTree := [(3, [0, 1]), (4, [2, -1]), (5, [3, 4])]

/-- Parent map of `treeFiller`. -/
def parentFiller : CoreParent :=
  [(0, 3), (1, 3), (2, 4), (3, 5), (4, 5), (5, -1)]

/-- Canonicalising a multiset's element list leaves the multiset
unchanged. -/
theorem msList_coe (m : Multiset Int) : (msList m : Multiset Int) = m := by
  induction m using Quot.inductionOn with
  | h l => exact Quot.sound (List.perm_insertionSort _ l)

/-- Membership in the canonical list is membership in the multiset. -/
theorem mem_msList (m : Multiset Int) (x : Int) : x ∈ msList m ↔ x ∈ m := by
  conv_rhs => rw [← msList_coe m]
  exact Multiset.mem_coe.symm

/-- Membership in the canonical iteration list is set membership. -/
theorem mem_finsetList (s : Finset Int) (x : Int) : x ∈ finsetList s ↔ x ∈ s := by
  rw [finsetList, mem_msList]; rfl

/-- The canonical iteration list of a finite set has no duplicates. -/
theorem finsetList_nodup (s : Finset Int) : (finsetList s).Nodup := by
  have h : ((finsetList s : List Int) : Multiset Int) = s.val := msList_coe s.val
  have h2 := s.nodup
  rw [← h] at h2
  exact h2

/-- A node that is not a switch appears in the leaf-descendant list of
`node` exactly when the router's own `isDescendant` test accepts it. -/
theorem mem_leafDesc_iff (ct : CoreTree) (t : Int) (ht : ct.lookup t = none) :
    ∀ (fuel : Nat) (node : Int),
      t ∈ leafDesc ct fuel node ↔ isDescendant ct fuel node t = true := by
  intro fuel
  induction fuel with
  | zero => intro node; simp [leafDesc, isDescendant]
  | succ f ih =>
    intro node
    cases h : ct.lookup node with
    | none =>
      rw [leafDesc, isDescendant, h]
      simp only [List.mem_singleton, Bool.or_false, beq_iff_eq]
      exact eq_comm
    | some cs =>
      have hnt : node ≠ t := by
        intro he; rw [he, ht] at h; exact Option.noConfusion h
      rw [leafDesc, isDescendant, h]
      simp only [List.mem_flatMap, List.any_eq_true, Bool.or_eq_true,
        beq_iff_eq, hnt, false_or]
      constructor
      · rintro ⟨c, hc, hmem⟩; exact ⟨c, hc, (ih c).mp hmem⟩
      · rintro ⟨c, hc, hdesc⟩; exact ⟨c, hc, (ih c).mpr hdesc⟩

/-- Membership after folding set unions over a list. -/
theorem mem_foldl_union (f : Int → Finset Int) (x : Int) :
    ∀ (l : List Int) (acc : Finset Int),
      x ∈ l.foldl (fun a p => a ∪ f p) acc ↔ x ∈ acc ∨ ∃ p ∈ l, x ∈ f p := by
  intro l
  induction l with
  | nil => intro acc; simp
  | cons y ys ih =>
    intro acc
    rw [List.foldl_cons, ih]
    simp [Finset.mem_union]
    tauto

/-- Inversion of a non-skipped LCA-router call: the result is the
leaf-descendant accounting of the selected ancestor. -/
theorem lcaRoute_inv (ct : CoreTree) (cp : CoreParent) (fuel : Nat)
    (srcCore : Int) (targets : Finset Int) (r : LCAResult)
    (hr : lcaRoute ct cp fuel srcCore targets = some r) :
    ∃ h : targets.Nonempty,
      r = lcaAccount ct fuel (lcaSelect cp fuel srcCore targets h) targets := by
  rw [lcaRoute] at hr
  split at hr
  case isTrue h =>
    split at hr
    · exact absurd hr (by simp)
    · exact ⟨h, (Option.some_injective _ hr).symm⟩
  case isFalse h => exact absurd hr (by simp)

/-- Characterisation of membership in the LCA router's target-core set:
core `c` is targeted exactly when some destination `i` clears the strict
threshold comparison, is mapped to `c`, and `c` is not the source core. -/
theorem mem_lcaTargets (m : List (List Int)) (thr : Int) (n2c : NeuronMap)
    (src : Nat) (c : Int) :
    c ∈ lcaTargets m thr n2c src ↔
      ∃ i, i < m.length ∧ thr < (m.getD src []).getD i 0 ∧
        n2c.lookup i = some c ∧ c ≠ srcCoreOf n2c src := by
  unfold lcaTargets
  simp only [List.mem_toFinset, List.mem_map, List.mem_filter, List.mem_range,
    Bool.and_eq_true, decide_eq_true_eq]
  constructor
  · rintro ⟨i, ⟨hi, ⟨hthr, hsome⟩, hneq⟩, hc⟩
    rcases Option.isSome_iff_exists.mp hsome with ⟨v, hv⟩
    rw [hv] at hc hneq
    simp only [Option.getD_some] at hc hneq
    subst hc
    exact ⟨i, hi, hthr, hv, hneq⟩
  · rintro ⟨i, hi, hthr, hv, hneq⟩
    refine ⟨i, ⟨hi, ⟨hthr, ?_⟩, ?_⟩, ?_⟩ <;> rw [hv] <;> simp [hneq]

/-- Characterisation of membership in the HBS router's cached target-core
set: the source must be mapped, and core `c` is targeted exactly when some
destination `j` of the source's row clears the non-strict threshold
comparison and is mapped to `c`.  There is no own-core exclusion. -/
theorem mem_hbsTargets (m : List (List Int)) (thr : Int) (n2c : NeuronMap)
    (src : Nat) (c : Int) :
    c ∈ hbsTargets m thr n2c src ↔
      (n2c.lookup src).isSome ∧
        ∃ j, j < (m.getD src []).length ∧ thr ≤ (m.getD src []).getD j 0 ∧
          n2c.lookup j = some c := by
  unfold hbsTargets
  split
  case isTrue hs =>
    simp only [List.mem_toFinset, List.mem_map, List.mem_filter, List.mem_range,
      Bool.and_eq_true, decide_eq_true_eq, hs, true_and]
    constructor
    · rintro ⟨j, ⟨hj, hthr, hsome⟩, hc⟩
      rcases Option.isSome_iff_exists.mp hsome with ⟨v, hv⟩
      rw [hv] at hc
      simp only [Option.getD_some] at hc
      subst hc
      exact ⟨j, hj, hthr, hv⟩
    · rintro ⟨j, hj, hthr, hv⟩
      refine ⟨j, ⟨hj, hthr, ?_⟩, ?_⟩ <;> rw [hv] <;> simp
  case isFalse hs =>
    simp [hs]

/-- The global OR mask is the union of the participating parents' local
masks. -/
theorem globalMask_eq (ct : CoreTree) (cp : CoreParent) (fuel : Nat)
    (targets : Finset Int) :
    globalMask ct cp fuel targets
      = (parentSwitches cp targets).biUnion (localMask ct cp fuel targets) := by
  ext x
  rw [globalMask, mem_foldl_union]
  simp [Finset.mem_biUnion, mem_finsetList]

/-- C1: for every source whose LCA routing is not skipped (and whose
target cores are genuine leaves, i.e. not switch ids), the per-source
waste delta equals the number of leaf endpoints under the computed LCA
minus the number of target cores that lie under the LCA; the set of
endpoints receiving one per-endpoint increment is exactly the non-target
leaves under the LCA; the per-source counter receives the same total; and
the delta is non-negative because the under-LCA target count never
exceeds the leaf count. -/
theorem lca_waste_spec (ct : CoreTree) (cp : CoreParent) (fuel : Nat)
    (srcCore : Int) (targets : Finset Int) (r : LCAResult)
    (hr : lcaRoute ct cp fuel srcCore targets = some r)
    (hleaf : ∀ t ∈ targets, ct.lookup t = none) :
    r.wasteDelta
        = (leafDesc ct fuel r.lca).toFinset.card
          - (targets.filter (fun t => isDescendant ct fuel r.lca t = true)).card
      ∧ (targets.filter (fun t => isDescendant ct fuel r.lca t = true)).card
          ≤ (leafDesc ct fuel r.lca).toFinset.card
      ∧ (∀ c : Int,
          c ∈ r.coreIncs ↔ c ∈ (leafDesc ct fuel r.lca).toFinset ∧ c ∉ targets)
      ∧ r.wasteDelta = r.coreIncs.card := by
  obtain ⟨h, rfl⟩ := lcaRoute_inv ct cp fuel srcCore targets r hr
  simp only [lcaAccount]
  set lca := lcaSelect cp fuel srcCore targets h with hlca
  set leaves := (leafDesc ct fuel lca).toFinset with hleaves
  have hfilter : targets.filter (fun t => isDescendant ct fuel lca t = true)
      = leaves ∩ targets := by
    ext t
    simp only [Finset.mem_filter, Finset.mem_inter, hleaves, List.mem_toFinset]
    constructor
    · rintro ⟨htm, hd⟩
      exact ⟨(mem_leafDesc_iff ct t (hleaf t htm) fuel lca).mpr hd, htm⟩
    · rintro ⟨hmem, htm⟩
      exact ⟨htm, (mem_leafDesc_iff ct t (hleaf t htm) fuel lca).mp hmem⟩
  have hcards := Finset.card_inter_add_card_sdiff leaves targets
  refine ⟨?_, ?_, ?_, trivial⟩
  · rw [hfilter]; omega
  · rw [hfilter]
    exact Finset.card_le_card (Finset.inter_subset_left)
  · intro c
    simp [Finset.mem_sdiff]

/-- C3: for every source, the HBS global mask is the set union of the
participating parents' local masks, and a parent's local mask holds
exactly the child indices (within its child list and the fixed group
width) whose bucket holds at least one target core assigned under that
child. -/
theorem hbs_global_mask_spec (ct : CoreTree) (cp : CoreParent) (fuel : Nat)
    (targets : Finset Int) :
    globalMask ct cp fuel targets
        = (parentSwitches cp targets).biUnion (localMask ct cp fuel targets)
      ∧ ∀ parent ci, ci ∈ localMask ct cp fuel targets parent ↔
          ∃ children, ct.lookup parent = some children ∧
            ∃ n : Nat, ci = Int.ofNat n ∧ n < children.length ∧ n < 4 ∧
              (hbsBucket ct cp fuel targets parent ci).Nonempty := by
  refine ⟨globalMask_eq ct cp fuel targets, ?_⟩
  intro parent ci
  unfold localMask
  cases h : ct.lookup parent with
  | none =>
    simp
  | some children =>
    simp only [Finset.mem_image, Finset.mem_filter, Finset.mem_range,
      Nat.lt_min, Option.some.injEq]
    constructor
    · rintro ⟨n, ⟨⟨hlen, h4⟩, hne⟩, hci⟩
      exact ⟨children, rfl, n, hci.symm, hlen, h4, hci ▸ hne⟩
    · rintro ⟨children2, hc2, n, hci, hlen, h4, hne⟩
      cases hc2
      exact ⟨n, ⟨⟨hlen, h4⟩, hci ▸ hne⟩, hci.symm⟩

/-- C2: for every participating parent switch and every global-mask child
index within the parent's child list and the fixed group width, the HBS
waste for that (parent, child-index) pair equals the number of leaf
endpoints under that child minus the number of target cores bucketed
under that child for that parent (the bucket never outgrowing the leaves
on well-formed trees), and when the bucket is empty every leaf under the
child receives a per-endpoint waste increment. -/
theorem hbs_pair_waste_spec (ct : CoreTree) (cp : CoreParent) (fuel : Nat)
    (targets : Finset Int) (parent ci : Int) (children : List Int)
    (hc : ct.lookup parent = some children)
    (h0 : 0 ≤ ci) (hlen : ci.toNat < children.length) (h4 : ci < maxGroupSize)
    (hcard : (hbsBucket ct cp fuel targets parent ci).card
      ≤ (collectLeafCores ct fuel (children.getD ci.toNat 0)).length) :
    (hbsPairContribution ct cp fuel targets parent ci).1
        = (collectLeafCores ct fuel (children.getD ci.toNat 0)).length
          - (hbsBucket ct cp fuel targets parent ci).card
      ∧ (hbsBucket ct cp fuel targets parent ci = ∅ →
          (hbsPairContribution ct cp fuel targets parent ci).2
            = collectLeafCores ct fuel (children.getD ci.toNat 0)) := by
  have hskip : ¬(ci < 0 ∨ (children.length : Int) ≤ ci ∨ maxGroupSize ≤ ci) := by
    rw [maxGroupSize] at h4 ⊢
    omega
  unfold hbsPairContribution
  rw [hc]
  dsimp only
  rw [if_neg hskip]
  set L := collectLeafCores ct fuel (children.getD ci.toNat 0) with hL
  set T := hbsBucket ct cp fuel targets parent ci with hT
  by_cases hpos : (0 : Int) < (L.length : Int) - (T.card : Int)
  · rw [if_pos hpos]
    refine ⟨by omega, ?_⟩
    intro hTe
    rw [hTe]
    simp
  · rw [if_neg hpos]
    have hle : L.length = T.card := by omega
    refine ⟨by omega, ?_⟩
    intro hTe
    rw [hTe, Finset.card_empty] at hle
    have : L = [] := List.length_eq_zero.mp (hle.symm ▸ rfl)
    rw [this]

/-- On a well-formed pair, the per-source waste added for the pair equals
the number of per-endpoint increments the pair performs. -/
theorem hbsPair_conserve (ct : CoreTree) (cp : CoreParent) (fuel : Nat)
    (targets : Finset Int) (parent ci : Int)
    (H : pairWF ct cp fuel targets parent ci) :
    (hbsPairContribution ct cp fuel targets parent ci).1
      = (hbsPairContribution ct cp fuel targets parent ci).2.length := by
  unfold hbsPairContribution
  cases hc : ct.lookup parent with
  | none => rfl
  | some children =>
    dsimp only
    by_cases hskip : ci < 0 ∨ (children.length : Int) ≤ ci ∨ maxGroupSize ≤ ci
    · rw [if_pos hskip]
      rfl
    · rw [if_neg hskip]
      rw [maxGroupSize] at hskip
      push_neg at hskip
      obtain ⟨h0, hlen, h4⟩ := hskip
      have hlen2 : ci.toNat < children.length := by omega
      obtain ⟨hnodup, hsub⟩ :=
        H children (Option.mem_def.mpr hc) (by omega) hlen2
          (by rw [maxGroupSize]; omega)
      set L := collectLeafCores ct fuel (children.getD ci.toNat 0) with hL
      set T := hbsBucket ct cp fuel targets parent ci with hT
      by_cases hpos : (0 : Int) < (L.length : Int) - (T.card : Int)
      · rw [if_pos hpos]
        by_cases hT0 : T.card = 0
        · rw [if_pos hT0]
          dsimp only
          omega
        · rw [if_neg hT0]
          dsimp only
          have hfl : (L.filter (fun c => decide (c ∈ T))).length = T.card := by
            have hfin : (L.filter (fun c => decide (c ∈ T))).toFinset
                = L.toFinset.filter (fun c => c ∈ T) := by
              rw [List.toFinset_filter]
              simp only [decide_eq_true_eq]
            have hTeq : L.toFinset.filter (fun c => c ∈ T) = T := by
              ext x
              simp only [Finset.mem_filter, List.mem_toFinset]
              exact ⟨fun hx => hx.2, fun hx => ⟨hsub x hx, hx⟩⟩
            have hnd : (L.filter (fun c => decide (c ∈ T))).Nodup :=
              hnodup.filter _
            rw [← List.toFinset_card_of_nodup hnd, hfin, hTeq]
          have hsplit := List.length_eq_length_filter_add
            (l := L) (fun c => decide (c ∈ T))
          simp only [← decide_not] at hsplit
          omega
      · rw [if_neg hpos]
        rfl

/-- Folding a (sum, append) accumulator over per-element contributions
preserves the sum-equals-length invariant when every visited contribution
satisfies it. -/
theorem foldl_sum_append (g : Int → Nat × List Int) :
    ∀ (l : List Int) (acc : Nat × List Int),
      (∀ x ∈ l, (g x).1 = (g x).2.length) → acc.1 = acc.2.length →
      (l.foldl (fun a x => (a.1 + (g x).1, a.2 ++ (g x).2)) acc).1
        = (l.foldl (fun a x => (a.1 + (g x).1, a.2 ++ (g x).2)) acc).2.length := by
  intro l
  induction l with
  | nil => intro acc _ hacc; exact hacc
  | cons x xs ih =>
    intro acc hl hacc
    rw [List.foldl_cons]
    refine ih _ (fun y hy => hl y (List.mem_cons_of_mem x hy)) ?_
    simp [hacc, hl x (List.mem_cons_self x xs)]

/-- C4: for every source, in both routers, the waste added to the
per-source counter by its routing call equals the number of per-endpoint
increments that call performs: unconditionally for the LCA router's
leaf-descendant accounting, and for the HBS router whenever every
(participating parent, global-mask index) pair is well formed. -/
theorem waste_conservation (ct : CoreTree) (cp : CoreParent) (fuel : Nat)
    (srcCore : Int) (ltargets htargets : Finset Int) (r : LCAResult)
    (hr : lcaRoute ct cp fuel srcCore ltargets = some r)
    (H : ∀ p ∈ parentSwitches cp htargets,
      ∀ ci ∈ globalMask ct cp fuel htargets,
        pairWF ct cp fuel htargets p ci) :
    r.wasteDelta = r.coreIncs.card
      ∧ (hbsRouteSource ct cp fuel htargets).1
          = (hbsRouteSource ct cp fuel htargets).2.length := by
  constructor
  · obtain ⟨h, rfl⟩ := lcaRoute_inv ct cp fuel srcCore ltargets r hr
    rfl
  · rw [hbsRouteSource]
    have houter :
        ∀ (ps : List Int) (acc : Nat × List Int),
          (∀ p ∈ ps, ∀ ci ∈ globalMask ct cp fuel htargets,
            pairWF ct cp fuel htargets p ci) →
          acc.1 = acc.2.length →
          (ps.foldl (fun acc p =>
            ((finsetList (globalMask ct cp fuel htargets)).foldl
              (fun acc2 ci =>
                let pr := hbsPairContribution ct cp fuel htargets p ci
                (acc2.1 + pr.1, acc2.2 ++ pr.2))
              acc)) acc).1
            = (ps.foldl (fun acc p =>
                ((finsetList (globalMask ct cp fuel htargets)).foldl
                  (fun acc2 ci =>
                    let pr := hbsPairContribution ct cp fuel htargets p ci
                    (acc2.1 + pr.1, acc2.2 ++ pr.2))
                  acc)) acc).2.length := by
      intro ps
      induction ps with
      | nil => intro acc _ hacc; exact hacc
      | cons p ps ih =>
        intro acc hps hacc
        rw [List.foldl_cons]
        refine ih _ (fun q hq => hps q (List.mem_cons_of_mem p hq)) ?_
        refine foldl_sum_append (hbsPairContribution ct cp fuel htargets p)
          (finsetList (globalMask ct cp fuel htargets)) acc ?_ hacc
        intro ci hci
        exact hbsPair_conserve ct cp fuel htargets p ci
          (hps p (List.mem_cons_self p ps)
            ci ((mem_finsetList _ ci).mp hci))
    refine houter (finsetList (parentSwitches cp htargets)) (0, []) ?_ rfl
    intro p hp ci hci
    exact H p ((mem_finsetList _ p).mp hp) ci hci

/-- C10: a (parent, index) pair whose index is negative, beyond the
parent's child list, or at least the fixed group width 4 is skipped with
no counter change; an index that is not skipped is a valid position in
the child list (so the `children[ci]` access is in bounds); hence a
binary switch (two children) never opens indices 2 or 3 even when the
global mask contains them. -/
theorem hbs_mask_bounds_safe (ct : CoreTree) (cp : CoreParent) (fuel : Nat)
    (targets : Finset Int) (parent ci : Int) (children : List Int)
    (hc : ct.lookup parent = some children) :
    ((ci < 0 ∨ (children.length : Int) ≤ ci ∨ maxGroupSize ≤ ci) →
        hbsPairContribution ct cp fuel targets parent ci = (0, []))
      ∧ (¬(ci < 0 ∨ (children.length : Int) ≤ ci ∨ maxGroupSize ≤ ci) →
          ci.toNat < children.length)
      ∧ (children.length = 2 → (ci = 2 ∨ ci = 3) →
          hbsPairContribution ct cp fuel targets parent ci = (0, []))
    := by
  have hskipped : ∀ h : ci < 0 ∨ (children.length : Int) ≤ ci ∨ maxGroupSize ≤ ci,
      hbsPairContribution ct cp fuel targets parent ci = (0, []) := by
    intro h
    unfold hbsPairContribution
    rw [hc]
    dsimp only
    rw [if_pos h]
  refine ⟨hskipped, ?_, ?_⟩
  · intro h
    rw [maxGroupSize] at h
    omega
  · intro h2 hci
    refine hskipped ?_
    rw [maxGroupSize, h2]
    omega

/-- Every node of the common prefix of two paths lies on the first path. -/
theorem mem_commonRun (a : Int) :
    ∀ (xs ys : List Int), a ∈ commonRun xs ys → a ∈ xs := by
  intro xs
  induction xs with
  | nil => intro ys h; simp [commonRun] at h
  | cons x xt ih =>
    intro ys h
    cases ys with
    | nil => simp [commonRun] at h
    | cons y yt =>
      rw [commonRun] at h
      by_cases hxy : x = y
      · rw [if_pos hxy] at h
        rcases List.mem_cons.mp h with h1 | h2
        · rw [h1]; exact List.mem_cons_self x xt
        · exact List.mem_cons_of_mem x (ih yt h2)
      · rw [if_neg hxy] at h
        simp at h

/-- The scan loop of `findLCA` returns the deepest node the two paths
share: the last element of their common prefix (default -1 when they
share nothing), provided the sentinel -1 does not occur as a node of the
first path. -/
theorem lcaScan_eq_commonRun :
    ∀ (xs ys : List Int), (-1 : Int) ∉ xs →
      lcaScan xs ys = (commonRun xs ys).getLastD (-1) := by
  intro xs
  induction xs with
  | nil => intro ys h; simp [lcaScan, commonRun]
  | cons x xt ih =>
    intro ys h
    cases ys with
    | nil => simp [lcaScan, commonRun]
    | cons y yt =>
      rw [lcaScan, commonRun]
      by_cases hxy : x = y
      · rw [if_pos hxy, if_pos hxy]
        dsimp only
        have ht : (-1 : Int) ∉ xt := fun hm => h (List.mem_cons_of_mem x hm)
        rw [ih yt ht, List.getLastD_cons]
        cases hcr : commonRun xt yt with
        | nil => simp
        | cons c cs =>
          rw [List.getLastD_cons, List.getLastD_cons]
          have hmem : cs.getLastD c ∈ c :: cs := List.getLastD_mem_cons cs c
          have hin : cs.getLastD c ∈ xt := mem_commonRun _ xt yt (hcr ▸ hmem)
          have hne : cs.getLastD c ≠ -1 := fun he => ht (he ▸ hin)
          rw [if_neg hne]
      · rw [if_neg hxy, if_neg hxy]
        simp

/-- C8: when a source has two or more target cores, the broadcasting
ancestor is the pairwise `findLCA` of the numerically smallest and
numerically largest target ids, and `findLCA` itself returns the deepest
node shared by the two root-to-node paths (the last element of their
common prefix), so the full-set LCA is approximated from exactly those
two extremes. -/
theorem lca_minmax_spec (ct : CoreTree) (cp : CoreParent) (fuel : Nat)
    (srcCore : Int) (targets : Finset Int) (r : LCAResult)
    (h2 : 2 ≤ targets.card)
    (hr : lcaRoute ct cp fuel srcCore targets = some r) :
    r.lca = findLCA cp fuel
        (targets.min' (Finset.card_pos.mp (lt_of_lt_of_le zero_lt_two h2)))
        (targets.max' (Finset.card_pos.mp (lt_of_lt_of_le zero_lt_two h2)))
      ∧ ∀ a b : Int, (-1 : Int) ∉ (upChain cp fuel a).reverse →
          findLCA cp fuel a b
            = (commonRun (upChain cp fuel a).reverse
                (upChain cp fuel b).reverse).getLastD (-1) := by
  constructor
  · obtain ⟨h, rfl⟩ := lcaRoute_inv ct cp fuel srcCore targets r hr
    show lcaSelect cp fuel srcCore targets h = _
    rw [lcaSelect, if_neg (by omega : ¬targets.card = 1)]
  · intro a b hnm
    rw [findLCA]
    exact lcaScan_eq_commonRun _ _ hnm

/-- C9: on the three-core binary topology the synthetic filler child -1
is reported as a leaf by both routers' leaf enumerations and receives
waste increments from both routers, contradicting the builder's own
convention (its tree serialisation and logging skip the -1 child): the
LCA router for source core 0 with target core 2 increments coreWaste[-1],
and the HBS router with target cores {1,2} increments wastedMessages[-1]. -/
theorem filler_leaf_bug :
    (-1 : Int) ∈ leafDesc treeFiller 10 5
      ∧ (-1 : Int) ∈ collectLeafCores treeFiller 10 4
      ∧ (-1 : Int) ∈
          ((lcaRoute treeFiller parentFiller 10 0 {2}).map
            LCAResult.coreIncs).getD ∅
      ∧ (-1 : Int) ∈ (hbsRouteSource treeFiller parentFiller 10 {1, 2}).2 := by
  decide

/-- C7 counterexample: routing source core 0 with target set {3} on the
four-core binary topology broadcasts from the root; the source's own core
0 is a non-target leaf under the LCA, so its per-endpoint counter is
incremented and it is included in the per-source total of 3. -/
theorem lca_source_counted_cex :
    (lcaRoute treeFour parentFour 10 0 {3}).isSome
      ∧ (0 : Int) ∈
          ((lcaRoute treeFour parentFour 10 0 {3}).map
            LCAResult.coreIncs).getD ∅
      ∧ ((lcaRoute treeFour parentFour 10 0 {3}).map
          LCAResult.wasteDelta).getD 0 = 3 := by
  decide

/-- C7 amended: in part_003's leaf-descendant accounting the source's
endpoint (never a target) gets a per-endpoint increment exactly when it
is a leaf under the LCA, while the visited-cores accounting of
RoutingEval/common/RoutingSimulator.cpp (lines 188-193) always excludes
the source core. -/
theorem lca_source_waste_spec (ct : CoreTree) (cp : CoreParent) (fuel : Nat)
    (srcCore : Int) (targets : Finset Int) (r : LCAResult)
    (hr : lcaRoute ct cp fuel srcCore targets = some r)
    (hsrc : srcCore ∉ targets) :
    (srcCore ∈ r.coreIncs ↔ srcCore ∈ (leafDesc ct fuel r.lca).toFinset)
      ∧ ∀ visited : Finset Int,
          srcCore ∉ visitedWasteIncs srcCore targets visited := by
  obtain ⟨h, rfl⟩ := lcaRoute_inv ct cp fuel srcCore targets r hr
  constructor
  · simp [lcaAccount, Finset.mem_sdiff, hsrc]
  · intro visited
    simp [visitedWasteIncs]

/-- Witness for the amended C7 theorem at the four-core topology. -/
theorem lca_source_waste_spec_check :
    ((0 : Int) ∈ (lcaAccount treeFour 10 6 {3}).coreIncs ↔
        (0 : Int) ∈
          (leafDesc treeFour 10 (lcaAccount treeFour 10 6 {3}).lca).toFinset)
      ∧ (0 : Int) ∉ visitedWasteIncs 0 {3} {0, 6} := by
  have h := lca_source_waste_spec treeFour parentFour 10 0 {3}
    (lcaAccount treeFour 10 6 {3}) (by decide) (by decide)
  exact ⟨h.1, h.2 {0, 6}⟩

/-- C5 counterexample: with the LCA router's constructor threshold 0, a
weight exactly equal to the threshold (matrix[0][1] = 0) whose
destination is mapped does not qualify, because the router compares with
strict `>`; the claimed `>=` rule would include core 1. -/
theorem threshold_boundary_cex :
    (0 : Int) ≤ (([[0, 0], [0, 0]] : List (List Int)).getD 0 []).getD 1 0
      ∧ List.lookup 1 [((0 : Nat), (0 : Int)), (1, 1)] = some 1
      ∧ (1 : Int) ∉ lcaTargets [[0, 0], [0, 0]] 0 [(0, 0), (1, 1)] 0 := by
  decide

/-- C5 amended: the HBS router admits destination `j` exactly when
`matrix[src][j] >= threshold` (the boundary weight qualifies) and `j` is
mapped, with no own-core exclusion; the LCA router instead admits `j`
only under the strict comparison `matrix[src][j] > threshold` and
additionally drops destinations mapping to the source's own core, so a
weight exactly equal to the threshold never qualifies there. -/
theorem threshold_rules_spec (m : List (List Int)) (thr : Int)
    (n2c : NeuronMap) (src : Nat) (c : Int) :
    (c ∈ hbsTargets m thr n2c src ↔
        (n2c.lookup src).isSome ∧
          ∃ j, j < (m.getD src []).length ∧ thr ≤ (m.getD src []).getD j 0 ∧
            n2c.lookup j = some c)
      ∧ (c ∈ lcaTargets m thr n2c src ↔
          ∃ i, i < m.length ∧ thr < (m.getD src []).getD i 0 ∧
            n2c.lookup i = some c ∧ c ≠ srcCoreOf n2c src) :=
  ⟨mem_hbsTargets m thr n2c src c, mem_lcaTargets m thr n2c src c⟩

/-- C6 counterexample: with a reflexive weight 1 at threshold 1, the HBS
router's cached target set for source 0 contains the source's own core 0,
because the HBS constructor never removes the source's endpoint. -/
theorem hbs_own_core_cex :
    srcCoreOf [((0 : Nat), (0 : Int))] 0
      ∈ hbsTargets [[1]] 1 [((0 : Nat), (0 : Int))] 0 := by
  decide

/-- C6 amended: the LCA router's per-source target-core set never
contains the source's own core (every qualifying destination with that
core is filtered out), while the HBS cached set has no such exclusion. -/
theorem lca_excludes_own_core (m : List (List Int)) (thr : Int)
    (n2c : NeuronMap) (src : Nat) :
    srcCoreOf n2c src ∉ lcaTargets m thr n2c src := by
  rw [mem_lcaTargets]
  rintro ⟨i, _, _, _, hne⟩
  exact hne rfl

/-- Witness for C1 at the four-core topology: source core 0, target core
3, LCA 6 (the root), waste 3 = 4 leaves minus 1 under-LCA target. -/
theorem lca_waste_spec_check :
    (lcaAccount treeFour 10 6 {3}).wasteDelta
      = (leafDesc treeFour 10 (lcaAccount treeFour 10 6 {3}).lca).toFinset.card
        - (({3} : Finset Int).filter
            (fun t =>
              isDescendant treeFour 10 (lcaAccount treeFour 10 6 {3}).lca t
                = true)).card :=
  (lca_waste_spec treeFour parentFour 10 0 {3} (lcaAccount treeFour 10 6 {3})
    (by decide) (by decide)).1

/-- Witness for C2 at the hierarchical topology: targets {1, 6} force the
global mask {1, 2}; pair (parent 8, index 2) has an empty bucket, so its
waste is the full leaf count under core 2. -/
theorem hbs_pair_waste_spec_check :
    (hbsPairContribution treeHier parentHier 10 {1, 6} 8 2).1
        = (collectLeafCores treeHier 10
            (([0, 1, 2, 3] : List Int).getD (2 : Int).toNat 0)).length
          - (hbsBucket treeHier parentHier 10 {1, 6} 8 2).card
      ∧ (hbsBucket treeHier parentHier 10 {1, 6} 8 2 = ∅ →
          (hbsPairContribution treeHier parentHier 10 {1, 6} 8 2).2
            = collectLeafCores treeHier 10
                (([0, 1, 2, 3] : List Int).getD (2 : Int).toNat 0)) :=
  hbs_pair_waste_spec treeHier parentHier 10 {1, 6} 8 2 [0, 1, 2, 3]
    (by decide) (by decide) (by decide) (by decide) (by decide)

/-- Witness for C4 at the hierarchical topology: the LCA call for source
core 0 with target {6} and the HBS call with targets {1, 6} both conserve
waste. -/
theorem waste_conservation_check :
    (lcaAccount treeHier 10 10 {6}).wasteDelta
        = (lcaAccount treeHier 10 10 {6}).coreIncs.card
      ∧ (hbsRouteSource treeHier parentHier 10 {1, 6}).1
          = (hbsRouteSource treeHier parentHier 10 {1, 6}).2.length :=
  waste_conservation treeHier parentHier 10 0 {6} {1, 6}
    (lcaAccount treeHier 10 10 {6}) (by decide) (by decide)

/-- Witness for C8 at the four-core topology: targets {1, 3} have extreme
ids 1 and 3, and the routed ancestor is their pairwise LCA. -/
theorem lca_minmax_spec_check :
    (lcaAccount treeFour 10 6 {1, 3}).lca = findLCA parentFour 10 1 3 := by
  have h := (lca_minmax_spec treeFour parentFour 10 0 {1, 3}
    (lcaAccount treeFour 10 6 {1, 3}) (by decide) (by decide)).1
  rw [h]
  decide

/-- Witness for C10 at the hierarchical topology: the binary root switch
10 has two children, so global-mask index 2 is skipped with no counter
change. -/
theorem hbs_mask_bounds_check :
    hbsPairContribution treeHier parentHier 10 {1, 6} 10 2 = (0, []) :=
  (hbs_mask_bounds_safe treeHier parentHier 10 {1, 6} 10 2 [8, 9]
    (by decide)).2.2 (by decide) (Or.inl (by decide))
